import Mathlib

/-!
Verification of the ddesolver core (`ddesolver/ddesolver.py`).

The module has three parts:

* `ddeVar` — the history function: a generator authoritative for
  `t ≤ generator_cutoff_time`, and a piecewise-linear scipy `interp1d`
  interpolator (with `bounds_error=False` and a constant `fill_value`)
  over the recorded samples for later times.
* `dde` — a subclass of `scipy.integrate.ode` whose `integrate` records
  the accepted `(self.t, self.y)` into the history right after the
  underlying engine returns.
* `solve_dde` — drives `dde` across the requested output times.

Times and states are modelled with `ℚ` (the code uses Python floats; the
claims are about code paths and exact node arithmetic, which the rational
model captures).  States are scalars: the vector case only reshapes data
(`Y2 = Y if Y.size == 1 else np.array([Y]).T`) and none of the claims
under study depends on the dimension.  The adaptive stepping engine
(`scipy.integrate.ode.integrate` together with the bound right-hand side
and its parameters) is a black box per the spec; it is modelled as a
function `engine : ℚ → ℚ → ℚ → ℚ` mapping the current time, the current
state and the target time to the accepted state at the target time
(the successful-step path, which is the scope of the claims).
-/

/-- Stable insertion of a point into a list of `(x, y)` points ordered by
`x`: the new point goes before the first existing point with a strictly
larger abscissa, after any point with an equal one.  This matches the
stable `argsort(kind="mergesort")` that `scipy.interpolate.interp1d`
applies to its input when `assume_sorted=False` (the default used by the
code). -/
def insertPt (p : ℚ × ℚ) : List (ℚ × ℚ) → List (ℚ × ℚ)
  | [] => [p]
  | q :: rest => if p.1 ≤ q.1 then p :: q :: rest else q :: insertPt p rest

/-- Stable sort of `(x, y)` points by abscissa, as `interp1d` performs on
construction (`assume_sorted=False` sorts `x` with a stable mergesort and
permutes `y` accordingly). -/
def sortPts : List (ℚ × ℚ) → List (ℚ × ℚ)
  | [] => []
  | p :: rest => insertPt p (sortPts rest)

/-- The state of a `scipy.interpolate.interp1d(kind="linear",
bounds_error=False, fill_value=c)` object as the code uses it: the sorted
abscissae `xs`, the ordinates `ys`, and the constant fill value returned
outside the sampled range. -/
structure Interp1d where
  xs : List ℚ
  ys : List ℚ
  fill : ℚ
deriving Repr

/-- Constructor of the linear `interp1d`: pairs up the given `x` and `y`
data, sorts the pairs by abscissa (stably), and stores the fill value. -/
def interp1d (x y : List ℚ) (fill : ℚ) : Interp1d :=
  let pts := sortPts (x.zip y)
  { xs := pts.map Prod.fst, ys := pts.map Prod.snd, fill := fill }

/-- Evaluation of the linear interpolant to the right of the first node:
the first argument is the current left node `(x0, y0)` with `t ≥ x0`
maintained by the caller.  Past the last node the constant fill value is
returned (`bounds_error=False` with scalar `fill_value`); at or before the
next node the two-point linear formula applies. -/
def interpEvalAux (fill t : ℚ) : ℚ × ℚ → List (ℚ × ℚ) → ℚ
  | (x0, y0), [] => if t = x0 then y0 else fill
  | (x0, y0), (x1, y1) :: rest =>
    if t ≤ x1 then y0 + (y1 - y0) * (t - x0) / (x1 - x0)
    else interpEvalAux fill t (x1, y1) rest

/-- Evaluation of the interpolant at `t` over its sorted node list:
below the first node or above the last node the constant fill value is
returned, otherwise the enclosing segment interpolates linearly. -/
def interpEval (fill : ℚ) (pts : List (ℚ × ℚ)) (t : ℚ) : ℚ :=
  match pts with
  | [] => fill
  | p :: rest => if t < p.1 then fill else interpEvalAux fill t p rest

/-- Evaluation of an `Interp1d` value at time `t`. -/
def Interp1d.eval (itp : Interp1d) (t : ℚ) : ℚ :=
  interpEval itp.fill (itp.xs.zip itp.ys) t

/-- The `ddeVar` class: the generator function, the cutoff time
`generator_cutoff_time`, and the current interpolator over the recorded
samples. -/
structure ddeVar where
  generator : ℚ → ℚ
  generator_cutoff_time : ℚ
  interpolator : Interp1d

/-- `ddeVar.__init__`: seeds the interpolator with the two points
`(cutoff - 1, generator(cutoff))` and `(cutoff, generator(cutoff))`
(the code needs at least two points for `interp1d`), with fill value
`generator(cutoff)`. -/
def ddeVar.init (generator : ℚ → ℚ) (generator_cutoff_time : ℚ) : ddeVar :=
  { generator := generator
    generator_cutoff_time := generator_cutoff_time
    interpolator :=
      interp1d [generator_cutoff_time - 1, generator_cutoff_time]
        [generator generator_cutoff_time, generator generator_cutoff_time]
        (generator generator_cutoff_time) }

/-- `ddeVar.update(t, Y)`: rebuilds the interpolator from the old nodes
with `(t, Y)` appended (`np.hstack([self.interpolator.x, [t]])`), and
sets the fill value to the new state `Y`. -/
def ddeVar.update (v : ddeVar) (t Y : ℚ) : ddeVar :=
  { v with
    interpolator :=
      interp1d (v.interpolator.xs ++ [t]) (v.interpolator.ys ++ [Y]) Y }

/-- `ddeVar.__call__(t)`: the generator for `t ≤ generator_cutoff_time`,
the interpolator otherwise. -/
def ddeVar.call (v : ddeVar) (t : ℚ) : ℚ :=
  if t ≤ v.generator_cutoff_time then v.generator t else v.interpolator.eval t

/-- The last abscissa of the interpolator: the last recorded sample time
(the default is irrelevant, the node list is never empty). -/
def ddeVar.lastTime (v : ddeVar) : ℚ :=
  v.interpolator.xs.getLastD 0

/-- The last ordinate of the interpolator: the last recorded state. -/
def ddeVar.lastState (v : ddeVar) : ℚ :=
  v.interpolator.ys.getLastD 0

/-- The `dde` integrator state: the engine's current accepted time
`self.t` and state `self.y`, and the bound history `self.Y`. -/
structure dde where
  t : ℚ
  y : ℚ
  Y : ddeVar

/-- `dde.set_initial_value(Y)`: binds the history and sets the engine's
initial condition to `(Y.generator_cutoff_time, Y(Y.generator_cutoff_time))`. -/
def dde.set_initial_value (Y : ddeVar) : dde :=
  { t := Y.generator_cutoff_time
    y := Y.call Y.generator_cutoff_time
    Y := Y }

/-- `dde.integrate(t)`: delegates to the engine (which on success sets
`self.t` to the target and `self.y` to the accepted state), then calls
`self.Y.update(self.t, self.y)` before returning. -/
def dde.integrate (engine : ℚ → ℚ → ℚ → ℚ) (s : dde) (target : ℚ) : dde :=
  let t1 := target
  let y1 := engine s.t s.y target
  { t := t1, y := y1, Y := s.Y.update t1 y1 }

/-- `np.diff`: adjacent differences of a list. -/
def diffList : List ℚ → List ℚ
  | [] => []
  | [_] => []
  | a :: b :: rest => (b - a) :: diffList (b :: rest)

/-- The stepping loop of `solve_dde`: for each time difference, advance
the integrator to `self.t + dt` and collect the returned state.  Returns
the collected states and the final integrator state. -/
def runSteps (engine : ℚ → ℚ → ℚ → ℚ) : dde → List ℚ → List ℚ × dde
  | s, [] => ([], s)
  | s, dt :: rest =>
    let s1 := s.integrate engine (s.t + dt)
    let (res, sF) := runSteps engine s1 rest
    (s1.y :: res, sF)

/-- `solve_dde(func, generator, tt)`: builds the history from
`(generator, tt[0])`, initialises the integrator, seeds the result list
with `generator(tt[0])`, then integrates across `np.diff(tt)`.  An empty
`tt` makes the subscript `tt[0]` raise before anything else runs,
modelled as `none`; the right-hand side `func` and its parameters are
absorbed into `engine`. -/
def solve_dde (engine : ℚ → ℚ → ℚ → ℚ) (generator : ℚ → ℚ)
    (tt : List ℚ) : Option (List ℚ) :=
  match tt with
  | [] => none
  | t0 :: rest =>
    let s0 := dde.set_initial_value (ddeVar.init generator t0)
    let (res, _) := runSteps engine s0 (diffList (t0 :: rest))
    some (generator t0 :: res)

/-- Well-formedness of a history in normal operation: the node lists pair
up, the node list is nonempty with strictly increasing abscissae, the
first node sits at `cutoff - 1`, the last at or after `cutoff`, and the
fill value is the last recorded state. -/
def ddeVar.WF (v : ddeVar) : Prop :=
  v.interpolator.xs ≠ [] ∧
  v.interpolator.xs.length = v.interpolator.ys.length ∧
  v.interpolator.xs.Pairwise (· < ·) ∧
  v.interpolator.xs.head? = some (v.generator_cutoff_time - 1) ∧
  v.generator_cutoff_time ≤ v.lastTime ∧
  v.interpolator.fill = v.lastState

/-! Helper lemmas about the stable sort used by `interp1d`. -/

theorem mem_insertPt {b p : ℚ × ℚ} {l : List (ℚ × ℚ)} :
    b ∈ insertPt p l ↔ b = p ∨ b ∈ l := by
  induction l with
  | nil => simp [insertPt]
  | cons q rest ih =>
    by_cases hpq : p.1 ≤ q.1
    · rw [insertPt, if_pos hpq]
      simp [List.mem_cons]
    · rw [insertPt, if_neg hpq]
      simp only [List.mem_cons, ih]
      tauto

theorem insertPt_pairwise {p : ℚ × ℚ} {l : List (ℚ × ℚ)}
    (h : l.Pairwise (fun a b => a.1 ≤ b.1)) :
    (insertPt p l).Pairwise (fun a b => a.1 ≤ b.1) := by
  induction l with
  | nil => simp [insertPt]
  | cons q rest ih =>
    rw [List.pairwise_cons] at h
    by_cases hpq : p.1 ≤ q.1
    · rw [insertPt, if_pos hpq]
      refine List.Pairwise.cons ?_ (List.Pairwise.cons h.1 h.2)
      intro b hb
      rcases List.mem_cons.mp hb with rfl | hb
      · exact hpq
      · exact le_trans hpq (h.1 b hb)
    · rw [insertPt, if_neg hpq]
      refine List.Pairwise.cons ?_ (ih h.2)
      intro b hb
      rcases mem_insertPt.mp hb with rfl | hb
      · exact le_of_not_le hpq
      · exact h.1 b hb

theorem sortPts_pairwise (l : List (ℚ × ℚ)) :
    (sortPts l).Pairwise (fun a b => a.1 ≤ b.1) := by
  induction l with
  | nil => simp [sortPts]
  | cons p rest ih => exact insertPt_pairwise ih

theorem sortPts_eq_self {l : List (ℚ × ℚ)}
    (h : l.Pairwise (fun a b => a.1 ≤ b.1)) : sortPts l = l := by
  induction l with
  | nil => rfl
  | cons p rest ih =>
    rw [List.pairwise_cons] at h
    rw [sortPts, ih h.2]
    cases rest with
    | nil => rfl
    | cons q rest' =>
      rw [insertPt, if_pos (h.1 q (List.mem_cons_self _ _))]

theorem pairwise_fst_zip {r : ℚ → ℚ → Prop} {xs : List ℚ} (ys : List ℚ)
    (h : xs.Pairwise r) : (xs.zip ys).Pairwise (fun a b => r a.1 b.1) := by
  induction xs generalizing ys with
  | nil => simp
  | cons x xs ih =>
    cases ys with
    | nil => simp
    | cons y ys =>
      rw [List.pairwise_cons] at h
      rw [List.zip_cons_cons, List.pairwise_cons]
      refine ⟨?_, ih ys h.2⟩
      intro b hb
      obtain ⟨b1, b2⟩ := b
      exact h.1 b1 (List.of_mem_zip hb).1

/-! Helper lemmas about evaluation of the linear interpolant. -/

theorem interpEvalAux_above {fill t x0 y0 : ℚ} {rest : List (ℚ × ℚ)}
    (h0 : x0 < t) (h : ∀ p ∈ rest, p.1 < t) :
    interpEvalAux fill t (x0, y0) rest = fill := by
  induction rest generalizing x0 y0 with
  | nil =>
    rw [interpEvalAux, if_neg]
    exact fun heq => absurd (heq ▸ h0) (lt_irrefl t)
  | cons q rest ih =>
    obtain ⟨x1, y1⟩ := q
    have hx1 : x1 < t := h (x1, y1) (List.mem_cons_self _ _)
    rw [interpEvalAux, if_neg (not_le.mpr hx1)]
    exact ih hx1 fun p hp => h p (List.mem_cons_of_mem _ hp)

theorem interpEvalAux_last {fill t1 y1 x0 y0 : ℚ} {rest : List (ℚ × ℚ)}
    (h0 : x0 < t1) (h : ∀ p ∈ rest, p.1 < t1) :
    interpEvalAux fill t1 (x0, y0) (rest ++ [(t1, y1)]) = y1 := by
  induction rest generalizing x0 y0 with
  | nil =>
    rw [List.nil_append, interpEvalAux, if_pos le_rfl,
      mul_div_cancel_right₀ _ (sub_ne_zero.mpr h0.ne')]
    ring
  | cons q rest ih =>
    obtain ⟨x1, y1'⟩ := q
    have hx1 : x1 < t1 := h (x1, y1') (List.mem_cons_self _ _)
    rw [List.cons_append, interpEvalAux, if_neg (not_le.mpr hx1)]
    exact ih hx1 fun p hp => h p (List.mem_cons_of_mem _ hp)

theorem interpEval_above {fill t : ℚ} {pts : List (ℚ × ℚ)}
    (hne : pts ≠ []) (h : ∀ p ∈ pts, p.1 < t) :
    interpEval fill pts t = fill := by
  cases pts with
  | nil => exact absurd rfl hne
  | cons p rest =>
    obtain ⟨x0, y0⟩ := p
    have hx0 : x0 < t := h (x0, y0) (List.mem_cons_self _ _)
    rw [interpEval, if_neg (not_lt.mpr (le_of_lt hx0))]
    exact interpEvalAux_above hx0 fun q hq => h q (List.mem_cons_of_mem _ hq)

theorem interpEval_last {fill t1 y1 : ℚ} {pts : List (ℚ × ℚ)}
    (hne : pts ≠ []) (h : ∀ p ∈ pts, p.1 < t1) :
    interpEval fill (pts ++ [(t1, y1)]) t1 = y1 := by
  cases pts with
  | nil => exact absurd rfl hne
  | cons p rest =>
    obtain ⟨x0, y0⟩ := p
    have hx0 : x0 < t1 := h (x0, y0) (List.mem_cons_self _ _)
    rw [List.cons_append, interpEval, if_neg (not_lt.mpr (le_of_lt hx0))]
    exact interpEvalAux_last hx0 fun q hq => h q (List.mem_cons_of_mem _ hq)

/-! Helper lemmas about sorted lists of times. -/

theorem all_lt_of_getLastD_lt {l : List ℚ} {t d : ℚ}
    (hpw : l.Pairwise (· < ·)) (hlt : l.getLastD d < t) : ∀ x ∈ l, x < t := by
  induction l generalizing d with
  | nil => simp
  | cons a l ih =>
    rw [List.getLastD_cons] at hlt
    rw [List.pairwise_cons] at hpw
    intro x hx
    rcases List.mem_cons.mp hx with rfl | hx
    · cases l with
      | nil => simpa using hlt
      | cons b l' =>
        have hab : x < b := hpw.1 b (List.mem_cons_self _ _)
        exact lt_trans hab (ih hpw.2 hlt b (List.mem_cons_self _ _))
    · exact ih hpw.2 hlt x hx

/-! Shape of the freshly constructed and of the updated history. -/

theorem init_interpolator (g : ℚ → ℚ) (c : ℚ) :
    (ddeVar.init g c).interpolator =
      ⟨[c - 1, c], [g c, g c], g c⟩ := by
  have h1 : c - 1 ≤ c := by linarith
  simp [ddeVar.init, interp1d, sortPts, insertPt, if_pos h1]

theorem init_cutoff (g : ℚ → ℚ) (c : ℚ) :
    (ddeVar.init g c).generator_cutoff_time = c := rfl

theorem WF_init (g : ℚ → ℚ) (c : ℚ) : (ddeVar.init g c).WF := by
  refine ⟨?_, ?_, ?_, ?_, ?_, ?_⟩ <;>
    simp [ddeVar.lastTime, ddeVar.lastState, init_interpolator, init_cutoff,
      List.getLastD_cons]

theorem update_interp {v : ddeVar} (t y : ℚ) (hWF : v.WF)
    (ht : ∀ x ∈ v.interpolator.xs, x < t) :
    (v.update t y).interpolator.xs = v.interpolator.xs ++ [t] ∧
    (v.update t y).interpolator.ys = v.interpolator.ys ++ [y] ∧
    (v.update t y).interpolator.fill = y := by
  obtain ⟨hne, hlen, hpw, hhead, hcut, hfill⟩ := hWF
  have hz : (v.interpolator.xs ++ [t]).zip (v.interpolator.ys ++ [y])
      = v.interpolator.xs.zip v.interpolator.ys ++ [(t, y)] :=
    List.zip_append hlen
  have hpts : (v.interpolator.xs.zip v.interpolator.ys ++ [(t, y)]).Pairwise
      (fun a b => a.1 ≤ b.1) := by
    rw [List.pairwise_append]
    refine ⟨(pairwise_fst_zip _ hpw).imp (fun h => le_of_lt h), ?_, ?_⟩
    · exact List.pairwise_singleton _ _
    · intro a ha b hb
      obtain ⟨a1, a2⟩ := a
      rcases List.mem_singleton.mp hb with rfl
      exact le_of_lt (ht a1 (List.of_mem_zip ha).1)
  have hsort :
      sortPts ((v.interpolator.xs ++ [t]).zip (v.interpolator.ys ++ [y]))
        = v.interpolator.xs.zip v.interpolator.ys ++ [(t, y)] := by
    rw [hz]; exact sortPts_eq_self hpts
  refine ⟨?_, ?_, rfl⟩
  · show (sortPts _).map Prod.fst = _
    rw [hsort, List.map_append,
      List.map_fst_zip _ _ (le_of_eq hlen)]
    rfl
  · show (sortPts _).map Prod.snd = _
    rw [hsort, List.map_append,
      List.map_snd_zip _ _ (le_of_eq hlen.symm)]
    rfl

theorem WF_update {v : ddeVar} (t y : ℚ) (hWF : v.WF)
    (ht : v.lastTime < t) : (v.update t y).WF := by
  have hall : ∀ x ∈ v.interpolator.xs, x < t :=
    all_lt_of_getLastD_lt hWF.2.2.1 ht
  obtain ⟨hxs, hys, hfill'⟩ := update_interp t y hWF hall
  obtain ⟨hne, hlen, hpw, hhead, hcut, hfill⟩ := hWF
  refine ⟨?_, ?_, ?_, ?_, ?_, ?_⟩
  · simp [hxs]
  · simp [hxs, hys, hlen]
  · rw [hxs, List.pairwise_append]
    exact ⟨hpw, List.pairwise_singleton _ _,
      fun a ha b hb => (List.mem_singleton.mp hb) ▸ hall a ha⟩
  · rw [hxs, List.head?_append_of_ne_nil _ hne]
    exact hhead
  · show _ ≤ (v.update t y).lastTime
    rw [ddeVar.lastTime, hxs, List.getLastD_concat]
    exact le_of_lt (lt_of_le_of_lt hcut ht)
  · rw [hfill', ddeVar.lastState, hys, List.getLastD_concat]

/-! Lemmas about the stepping loop of `solve_dde`. -/

theorem runSteps_length (engine : ℚ → ℚ → ℚ → ℚ) (s : dde)
    (diffs : List ℚ) : (runSteps engine s diffs).1.length = diffs.length := by
  induction diffs generalizing s with
  | nil => rfl
  | cons dt rest ih => simp [runSteps, ih]

theorem diffList_length (l : List ℚ) : (diffList l).length = l.length - 1 := by
  match l with
  | [] => rfl
  | [_] => rfl
  | a :: b :: rest =>
    rw [diffList, List.length_cons, diffList_length (b :: rest)]
    simp

/-- Claim C1: for every accepted integration step (the engine reaches a target
time past the last recorded sample), `dde.integrate` records the newly
accepted `(time, state)` pair into the history before returning, and
afterwards the integrator's current time is the last recorded time and
its current state is the last recorded state. -/
theorem integrate_syncs_history (engine : ℚ → ℚ → ℚ → ℚ) (s : dde)
    (target : ℚ) (hWF : s.Y.WF) (ht : s.Y.lastTime < target) :
    ((s.integrate engine target).t, (s.integrate engine target).y) ∈
        (s.integrate engine target).Y.interpolator.xs.zip
          (s.integrate engine target).Y.interpolator.ys ∧
    (s.integrate engine target).t = (s.integrate engine target).Y.lastTime ∧
    (s.integrate engine target).y = (s.integrate engine target).Y.lastState := by
  have hall : ∀ x ∈ s.Y.interpolator.xs, x < target :=
    all_lt_of_getLastD_lt hWF.2.2.1 ht
  obtain ⟨hxs, hys, _⟩ :=
    update_interp target (engine s.t s.y target) hWF hall
  have hz : (s.Y.interpolator.xs ++ [target]).zip
      (s.Y.interpolator.ys ++ [engine s.t s.y target])
      = s.Y.interpolator.xs.zip s.Y.interpolator.ys
          ++ [(target, engine s.t s.y target)] :=
    List.zip_append hWF.2.1
  refine ⟨?_, ?_, ?_⟩
  · show (target, engine s.t s.y target) ∈ _
    rw [show (s.integrate engine target).Y
        = s.Y.update target (engine s.t s.y target) from rfl, hxs, hys, hz]
    exact List.mem_append_right _ (List.mem_singleton.mpr rfl)
  · show target = _
    rw [show (s.integrate engine target).Y
        = s.Y.update target (engine s.t s.y target) from rfl,
      ddeVar.lastTime, hxs, List.getLastD_concat]
  · show engine s.t s.y target = _
    rw [show (s.integrate engine target).Y
        = s.Y.update target (engine s.t s.y target) from rfl,
      ddeVar.lastState, hys, List.getLastD_concat]

/-- Witness for C1 at a concrete integrator state and engine. -/
theorem integrate_syncs_history_witness :
    (((dde.set_initial_value (ddeVar.init (fun u => u) 0)).integrate
          (fun _ y _ => y + 1) 2).t,
        ((dde.set_initial_value (ddeVar.init (fun u => u) 0)).integrate
          (fun _ y _ => y + 1) 2).y) ∈
      ((dde.set_initial_value (ddeVar.init (fun u => u) 0)).integrate
          (fun _ y _ => y + 1) 2).Y.interpolator.xs.zip
        ((dde.set_initial_value (ddeVar.init (fun u => u) 0)).integrate
          (fun _ y _ => y + 1) 2).Y.interpolator.ys ∧
    ((dde.set_initial_value (ddeVar.init (fun u => u) 0)).integrate
        (fun _ y _ => y + 1) 2).t =
      ((dde.set_initial_value (ddeVar.init (fun u => u) 0)).integrate
        (fun _ y _ => y + 1) 2).Y.lastTime ∧
    ((dde.set_initial_value (ddeVar.init (fun u => u) 0)).integrate
        (fun _ y _ => y + 1) 2).y =
      ((dde.set_initial_value (ddeVar.init (fun u => u) 0)).integrate
        (fun _ y _ => y + 1) 2).Y.lastState :=
  integrate_syncs_history (fun _ y _ => y + 1)
    (dde.set_initial_value (ddeVar.init (fun u => u) 0)) 2
    (WF_init (fun u => u) 0)
    (by norm_num [ddeVar.lastTime, dde.set_initial_value, init_interpolator])

/-- Claim C2: evaluation of the history at any time at or below the cutoff
returns the generator value there, never the interpolant. -/
theorem call_le_cutoff_eq_generator (v : ddeVar) (t : ℚ)
    (h : t ≤ v.generator_cutoff_time) : v.call t = v.generator t := by
  rw [ddeVar.call, if_pos h]

/-- Witness for C2 at a concrete history and time. -/
theorem call_le_cutoff_eq_generator_witness :
    (ddeVar.init (fun u => u + 1) 0).call (-3)
      = (ddeVar.init (fun u => u + 1) 0).generator (-3) :=
  call_le_cutoff_eq_generator (ddeVar.init (fun u => u + 1) 0) (-3)
    (by rw [init_cutoff]; norm_num)

/-- Claim C3: evaluation of the history strictly past the last recorded sample
time returns the last recorded state (the constant fill value of the
interpolant), with no out-of-range failure. -/
theorem call_above_last_eq_lastState (v : ddeVar) (hWF : v.WF) (t : ℚ)
    (ht : v.lastTime < t) : v.call t = v.lastState := by
  obtain ⟨hne, hlen, hpw, hhead, hcut, hfill⟩ := hWF
  rw [ddeVar.call, if_neg (not_le.mpr (lt_of_le_of_lt hcut ht))]
  have hall : ∀ x ∈ v.interpolator.xs, x < t := all_lt_of_getLastD_lt hpw ht
  have hzne : v.interpolator.xs.zip v.interpolator.ys ≠ [] := by
    intro hcon
    have : v.interpolator.xs.length = 0 := by
      have := congrArg List.length hcon
      rwa [List.length_zip, ← hlen, min_self] at this
    exact hne (List.eq_nil_of_length_eq_zero this)
  rw [Interp1d.eval, interpEval_above hzne]
  · exact hfill
  · intro p hp
    obtain ⟨p1, p2⟩ := p
    exact hall p1 (List.of_mem_zip hp).1

/-- Witness for C3 at a concrete history and time. -/
theorem call_above_last_eq_lastState_witness :
    (ddeVar.init (fun u => u) 0).call 5 = (ddeVar.init (fun u => u) 0).lastState :=
  call_above_last_eq_lastState (ddeVar.init (fun u => u) 0)
    (WF_init (fun u => u) 0) 5
    (by norm_num [ddeVar.lastTime, init_interpolator])

/-- Counterexample to C4 as stated: recording time 3 after time 5 does
not fail — the rebuilt interpolator silently sorts the samples
(`[-1, 0, 3, 5]`) and evaluation at the late-recorded node works. -/
theorem update_out_of_order_no_failure :
    (((ddeVar.init (fun _ => 0) 0).update 5 10).update 3 7).interpolator.xs
        = [-1, 0, 3, 5] ∧
    (((ddeVar.init (fun _ => 0) 0).update 5 10).update 3 7).call 3 = 7 := by
  constructor
  · norm_num [ddeVar.init, ddeVar.update, interp1d, sortPts, insertPt]
  · norm_num [ddeVar.init, ddeVar.update, ddeVar.call, interp1d, sortPts,
      insertPt, Interp1d.eval, interpEval, interpEvalAux]

/-- Claim C4, amended: `update` with any time, in order or not, never fails;
the rebuilt interpolator's sample times always come out sorted
(non-strictly), i.e. an out-of-order record is silently reordered
rather than rejected. -/
theorem update_total_and_sorted (v : ddeVar) (t y : ℚ) :
    ((v.update t y).interpolator.xs).Pairwise (· ≤ ·) := by
  show ((sortPts _).map Prod.fst).Pairwise (· ≤ ·)
  rw [List.pairwise_map]
  exact sortPts_pairwise _

/-- Counterexample to C5 as stated: at construction the first sample time
is `cutoff - 1`, not the cutoff. -/
theorem init_first_sample_not_cutoff :
    (ddeVar.init (fun u => u) 0).interpolator.xs.head? = some (-1) ∧
    ((-1 : ℚ) ≠ (ddeVar.init (fun u => u) 0).generator_cutoff_time) := by
  rw [init_interpolator, init_cutoff]
  norm_num

/-- Claim C5, amended: the sample times are strictly increasing and the first
sample time equals `cutoff - 1` (the seed holds two points, at
`cutoff - 1` and `cutoff`, both carrying `generator(cutoff)`); this holds
at construction and is preserved by every `update` whose time exceeds the
last recorded time. -/
theorem samples_strictly_increasing_first_at_cutoff_sub_one
    (g : ℚ → ℚ) (c : ℚ) (v : ddeVar) (t y : ℚ) :
    ((ddeVar.init g c).interpolator.xs.Pairwise (· < ·) ∧
      (ddeVar.init g c).interpolator.xs.head? = some (c - 1)) ∧
    (v.WF → v.lastTime < t →
      ((v.update t y).interpolator.xs.Pairwise (· < ·) ∧
        (v.update t y).interpolator.xs.head? =
          some (v.generator_cutoff_time - 1))) := by
  constructor
  · have h := WF_init g c
    exact ⟨h.2.2.1, init_cutoff g c ▸ h.2.2.2.1⟩
  · intro hWF ht
    have h := WF_update t y hWF ht
    exact ⟨h.2.2.1, h.2.2.2.1⟩

/-- Witness for the amended C5 at a concrete history and update. -/
theorem samples_invariant_witness :
    (((ddeVar.init (fun u => u) 0).interpolator.xs.Pairwise (· < ·) ∧
        (ddeVar.init (fun u => u) 0).interpolator.xs.head? = some (0 - 1)) ∧
      (((ddeVar.init (fun u => u) 0).update 1 5).interpolator.xs.Pairwise
          (· < ·) ∧
        ((ddeVar.init (fun u => u) 0).update 1 5).interpolator.xs.head? =
          some ((ddeVar.init (fun u => u) 0).generator_cutoff_time - 1))) :=
  ⟨(samples_strictly_increasing_first_at_cutoff_sub_one (fun u => u) 0
      (ddeVar.init (fun u => u) 0) 1 5).1,
    (samples_strictly_increasing_first_at_cutoff_sub_one (fun u => u) 0
      (ddeVar.init (fun u => u) 0) 1 5).2 (WF_init (fun u => u) 0)
      (by norm_num [ddeVar.lastTime, init_interpolator])⟩

/-- Claim C6: recording a point strictly past the cutoff and the last recorded
time, then evaluating the history at the recorded time, reproduces the
recorded state exactly (the piecewise-linear interpolant hits its
nodes). -/
theorem updated_call_at_node (v : ddeVar) (t1 y1 : ℚ) (hWF : v.WF)
    (hc : v.generator_cutoff_time < t1) (hlast : v.lastTime < t1) :
    (v.update t1 y1).call t1 = y1 := by
  have hall : ∀ x ∈ v.interpolator.xs, x < t1 :=
    all_lt_of_getLastD_lt hWF.2.2.1 hlast
  obtain ⟨hxs, hys, hfill'⟩ := update_interp t1 y1 hWF hall
  have hcut' : (v.update t1 y1).generator_cutoff_time
      = v.generator_cutoff_time := rfl
  rw [ddeVar.call, hcut', if_neg (not_le.mpr hc), Interp1d.eval, hxs, hys,
    hfill', List.zip_append hWF.2.1]
  have hzne : v.interpolator.xs.zip v.interpolator.ys ≠ [] := by
    intro hcon
    have : v.interpolator.xs.length = 0 := by
      have := congrArg List.length hcon
      rwa [List.length_zip, ← hWF.2.1, min_self] at this
    exact hWF.1 (List.eq_nil_of_length_eq_zero this)
  refine interpEval_last hzne ?_
  intro p hp
  obtain ⟨p1, p2⟩ := p
  exact hall p1 (List.of_mem_zip hp).1

/-- Witness for C6 at a concrete history and node. -/
theorem updated_call_at_node_witness :
    ((ddeVar.init (fun u => u) 0).update 2 9).call 2 = 9 :=
  updated_call_at_node (ddeVar.init (fun u => u) 0) 2 9
    (WF_init (fun u => u) 0) (by rw [init_cutoff]; norm_num)
    (by norm_num [ddeVar.lastTime, init_interpolator])

/-- Claim C7: for a nonempty strictly increasing output-time sequence,
`solve_dde` returns one state per output time (same length, same order)
and the first returned state is `generator(tt[0])`. -/
theorem solve_dde_length_and_head (engine : ℚ → ℚ → ℚ → ℚ) (g : ℚ → ℚ)
    (tt : List ℚ) (hne : tt ≠ []) (hinc : tt.Pairwise (· < ·)) :
    ∃ res, solve_dde engine g tt = some res ∧
      res.length = tt.length ∧ res.head? = tt.head?.map g := by
  cases tt with
  | nil => exact absurd rfl hne
  | cons t0 rest =>
    refine ⟨g t0 :: (runSteps engine
        (dde.set_initial_value (ddeVar.init g t0))
        (diffList (t0 :: rest))).1, rfl, ?_, ?_⟩
    · rw [List.length_cons, runSteps_length, diffList_length]
      simp
    · simp

/-- Witness for C7 on a concrete two-point request. -/
theorem solve_dde_length_and_head_witness :
    ∃ res, solve_dde (fun _ y _ => y) (fun u => u) [0, 1] = some res ∧
      res.length = ([0, 1] : List ℚ).length ∧
      res.head? = ([0, 1] : List ℚ).head?.map (fun u => u) :=
  solve_dde_length_and_head (fun _ y _ => y) (fun u => u) [0, 1]
    (by simp) (by norm_num [List.pairwise_cons])

/-- Claim C8: a single-point request returns exactly the generator value at
that point, with the stepping engine never consulted (the result is the
same for every engine). -/
theorem solve_dde_single (engine : ℚ → ℚ → ℚ → ℚ) (g : ℚ → ℚ) (t0 : ℚ) :
    solve_dde engine g [t0] = some [g t0] := rfl

/-- Counterexample to C9 as stated: the non-increasing request `[0, 0]`
is not rejected — `solve_dde` runs the stepping loop (the engine's
output `1` appears in the result) and returns a normal value. -/
theorem solve_dde_nonincreasing_not_rejected :
    solve_dde (fun _ y _ => y + 1) (fun u => u) [0, 0] = some [0, 1] := by
  norm_num [solve_dde, runSteps, diffList, dde.set_initial_value,
    dde.integrate, ddeVar.init, ddeVar.update, ddeVar.call, interp1d,
    sortPts, insertPt]

/-- Claim C9, amended: an empty output-time sequence fails before any stepping
(the subscript `tt[0]` raises), but `solve_dde` performs no
strict-increase validation — every nonempty sequence, increasing or not,
yields a full-length result. -/
theorem solve_dde_empty_vs_nonempty (engine : ℚ → ℚ → ℚ → ℚ)
    (g : ℚ → ℚ) :
    solve_dde engine g [] = none ∧
    ∀ tt : List ℚ, tt ≠ [] → ∃ res, solve_dde engine g tt = some res ∧
      res.length = tt.length := by
  refine ⟨rfl, ?_⟩
  intro tt hne
  cases tt with
  | nil => exact absurd rfl hne
  | cons t0 rest =>
    refine ⟨g t0 :: (runSteps engine
        (dde.set_initial_value (ddeVar.init g t0))
        (diffList (t0 :: rest))).1, rfl, ?_⟩
    rw [List.length_cons, runSteps_length, diffList_length]
    simp

/-- Witness for the amended C9: the empty request errors, the
non-increasing request is processed to full length. -/
theorem solve_dde_empty_vs_nonempty_witness :
    solve_dde (fun _ y _ => y + 1) (fun u => u) [] = none ∧
    ∃ res, solve_dde (fun _ y _ => y + 1) (fun u => u) [0, 0] = some res ∧
      res.length = ([0, 0] : List ℚ).length :=
  ⟨(solve_dde_empty_vs_nonempty (fun _ y _ => y + 1) (fun u => u)).1,
    (solve_dde_empty_vs_nonempty (fun _ y _ => y + 1) (fun u => u)).2
      [0, 0] (by simp)⟩

/-- Claim C10: before any record, the history at any time strictly past the
cutoff evaluates to `generator(cutoff)` (the seed interpolant is
constant at that value and so is its fill). -/
theorem init_call_above_cutoff (g : ℚ → ℚ) (c t : ℚ) (ht : c < t) :
    (ddeVar.init g c).call t = g c := by
  rw [ddeVar.call, init_cutoff, if_neg (not_le.mpr ht)]
  have hitp : (ddeVar.init g c).interpolator.eval t
      = interpEval (g c) [(c - 1, g c), (c, g c)] t := by
    rw [init_interpolator]; rfl
  rw [hitp]
  refine interpEval_above (by simp) ?_
  intro p hp
  rcases List.mem_cons.mp hp with rfl | hp
  · show c - 1 < t
    linarith
  · rw [List.mem_singleton] at hp
    subst hp
    exact ht

/-- Witness for C10 at a concrete generator, cutoff and time. -/
theorem init_call_above_cutoff_witness :
    (ddeVar.init (fun u => u) 0).call 7 = (fun u : ℚ => u) 0 :=
  init_call_above_cutoff (fun u => u) 0 7 (by norm_num)
